import Mathlib

/-!
# Registry Synchronization & Caching Engine — verification development

Shallow embedding, in Lean 4, of the core of the KYB-Lite repository: the
Companies House rate limiter (`src/lib/services/ai-analysis.ts`), the company
details route, the bulk route (`src/unnamed/part_016`), and the search route
(`src/unnamed/part_017`).  Timestamps are modelled as integers (milliseconds
since the epoch, mirroring JavaScript `Date.now()`), strings of interest as
Lean `String`s or `List Char`, and the relational store as a list of rows with
upsert-by-key semantics.
-/

namespace KYB

/-! ## Rate limiter (`src/lib/services/ai-analysis.ts`, class `RateLimiter`)

State is the list `requests` of past request timestamps.  `acquire()` first
drops entries outside the window, then either waits (when the windowed count
has reached `maxRequests`) and retries, or records the request.  One step of
`acquire` is `acquireStep`; the retry loop is `acquireLoop`, with explicit
fuel, and time advanced by the computed wait between retries. -/

/-- `Math.min(...list)` over a nonempty list `t :: ts`; on `[]` we return `0`
(in the source this case is unreachable whenever `maxRequests > 0`, because
the branch computing the minimum requires at least `maxRequests` entries). -/
def jsMin : List Int → Int
  | [] => 0
  | t :: ts => ts.foldl min t

/-- One pass of `RateLimiter.acquire`: prune timestamps outside the window,
then either admit (append `now`, result `none` = no wait) or report the wait
time (result `some waitTime`), leaving the pruned state.  Mirrors
`ai-analysis.ts` lines 362-382. -/
def acquireStep (maxRequests : Nat) (windowMs now : Int) (s : List Int) :
    List Int × Option Int :=
  let pruned := s.filter (fun t => now - t < windowMs)
  if maxRequests ≤ pruned.length then
    let oldest := jsMin pruned
    let waitTime := windowMs - (now - oldest) + 1000
    if 0 < waitTime then (pruned, some waitTime) else (pruned ++ [now], none)
  else (pruned ++ [now], none)

/-- The `acquire` retry loop: on a wait, sleep `waitTime` (advance `now`) and
call `acquire` again on the pruned state.  Returns the final state and the
admission time, or `none` when the fuel runs out. -/
def acquireLoop : Nat → Nat → Int → Int → List Int → Option (List Int × Int)
  | 0, _, _, _, _ => none
  | fuel + 1, maxRequests, windowMs, now, s =>
    match acquireStep maxRequests windowMs now s with
    | (s', none) => some (s', now)
    | (s', some waitTime) =>
      acquireLoop fuel maxRequests windowMs (now + waitTime) s'

theorem foldl_min_mem (t : Int) (ts : List Int) : ts.foldl min t ∈ t :: ts := by
  induction ts generalizing t with
  | nil => simp
  | cons h hs ih =>
    rw [List.foldl_cons]
    rcases List.mem_cons.mp (ih (min t h)) with h1 | h2
    · rcases min_choice t h with hm | hm
      · rw [h1, hm]; exact List.mem_cons_self _ _
      · rw [h1, hm]; exact List.mem_cons.mpr (Or.inr (List.mem_cons_self _ _))
    · exact List.mem_cons.mpr (Or.inr (List.mem_cons.mpr (Or.inr h2)))

theorem jsMin_mem {l : List Int} (h : l ≠ []) : jsMin l ∈ l := by
  match l with
  | [] => exact absurd rfl h
  | t :: ts => exact foldl_min_mem t ts

theorem length_filter_lt_of_mem_not {α : Type} {p : α → Bool} {l : List α}
    {x : α} (hx : x ∈ l) (hpx : p x = false) :
    (l.filter p).length < l.length := by
  induction l with
  | nil => cases hx
  | cons a as ih =>
    rcases List.mem_cons.mp hx with rfl | hmem
    · simp only [List.filter_cons, hpx, List.length_cons]
      exact Nat.lt_succ_of_le (List.length_filter_le p as)
    · by_cases hpa : p a
      · simpa [List.filter_cons, hpa] using Nat.succ_lt_succ (ih hmem)
      · simp only [List.filter_cons, Bool.not_eq_true] at hpa ⊢
        rw [hpa]
        simp only [Bool.false_eq_true, if_false, List.length_cons]
        exact Nat.lt_succ_of_lt (ih hmem)

theorem acquireLoop_succ (fuel maxRequests : Nat) (windowMs now : Int)
    (s : List Int) :
    acquireLoop (fuel + 1) maxRequests windowMs now s =
      match acquireStep maxRequests windowMs now s with
      | (s', none) => some (s', now)
      | (s', some waitTime) =>
        acquireLoop fuel maxRequests windowMs (now + waitTime) s' := rfl

theorem acquireStep_wait {maxRequests : Nat} {windowMs now : Int}
    {s : List Int} (hmax : 0 < maxRequests)
    (hlen : maxRequests ≤ (s.filter (fun t => now - t < windowMs)).length) :
    acquireStep maxRequests windowMs now s =
      (s.filter (fun t => now - t < windowMs),
        some (windowMs -
          (now - jsMin (s.filter (fun t => now - t < windowMs))) + 1000)) := by
  have hne : s.filter (fun t => now - t < windowMs) ≠ [] := by
    intro h0
    rw [h0] at hlen
    simp at hlen
    omega
  have hmem := jsMin_mem hne
  have hpred : now - jsMin (s.filter (fun t => now - t < windowMs)) < windowMs := by
    have := (List.mem_filter.mp hmem).2
    simpa using this
  have hwait :
      0 < windowMs -
        (now - jsMin (s.filter (fun t => now - t < windowMs))) + 1000 := by
    omega
  unfold acquireStep
  rw [if_pos hlen, if_pos hwait]

theorem acquireStep_admit {maxRequests : Nat} {windowMs now : Int}
    {s : List Int}
    (hlen : (s.filter (fun t => now - t < windowMs)).length < maxRequests) :
    acquireStep maxRequests windowMs now s =
      (s.filter (fun t => now - t < windowMs) ++ [now], none) := by
  unfold acquireStep
  rw [if_neg (by omega)]

theorem acquireLoop_admits (maxRequests : Nat) (hmax : 0 < maxRequests)
    (windowMs now : Int) (s : List Int) (hlen : s.length ≤ maxRequests) :
    ∃ s2 tAdmit, acquireLoop 2 maxRequests windowMs now s = some (s2, tAdmit) := by
  have h2 : (2 : Nat) = 1 + 1 := rfl
  by_cases hc : (s.filter (fun t => now - t < windowMs)).length < maxRequests
  · refine ⟨s.filter (fun t => now - t < windowMs) ++ [now], now, ?_⟩
    rw [h2, acquireLoop_succ, acquireStep_admit hc]
  · push_neg at hc
    have hstep := acquireStep_wait hmax hc
    have hne : s.filter (fun t => now - t < windowMs) ≠ [] := by
      intro h0
      rw [h0] at hc
      simp at hc
      omega
    have hmem := jsMin_mem hne
    have hpredm :
        now - jsMin (s.filter (fun t => now - t < windowMs)) < windowMs := by
      have := (List.mem_filter.mp hmem).2
      simpa using this
    set pruned := s.filter (fun t => now - t < windowMs) with hp
    set w := windowMs - (now - jsMin pruned) + 1000 with hw
    have hdrop :
        (pruned.filter (fun t => (now + w) - t < windowMs)).length <
          pruned.length := by
      apply length_filter_lt_of_mem_not hmem
      simp only [decide_eq_false_iff_not, not_lt, hw]
      omega
    have hple : pruned.length ≤ s.length := List.length_filter_le _ _
    have hlen2 :
        (pruned.filter (fun t => (now + w) - t < windowMs)).length <
          maxRequests := by omega
    refine ⟨pruned.filter (fun t => (now + w) - t < windowMs) ++ [now + w],
      now + w, ?_⟩
    rw [h2, acquireLoop_succ, hstep]
    show acquireLoop 1 maxRequests windowMs (now + w) pruned = _
    rw [show (1 : Nat) = 0 + 1 from rfl, acquireLoop_succ,
      acquireStep_admit hlen2]

/-- **C1**: on every `RateLimiter.acquire()` call (N = 600, W = 5 min):
stale timestamps are pruned first; when at least 600 timestamps remain in the
window the call waits `windowMs - (now - oldest) + 1000` ms (until the oldest
entry exits the window plus a 1 s safety buffer) and then retries; the call
never rejects — starting from any reachable state (at most 600 recorded
timestamps) it is admitted within two passes of the loop. -/
theorem rateLimiter_acquire_spec (now : Int) (s : List Int)
    (hlen : s.length ≤ 600) :
    (∀ pruned, pruned = s.filter (fun t => now - t < 300000) →
      600 ≤ pruned.length →
      acquireStep 600 300000 now s =
        (pruned, some (300000 - (now - jsMin pruned) + 1000))) ∧
    (∃ s2 tAdmit, acquireLoop 2 600 300000 now s = some (s2, tAdmit)) := by
  constructor
  · intro pruned hp hge
    subst hp
    exact acquireStep_wait (by norm_num) hge
  · exact acquireLoop_admits 600 (by norm_num) 300000 now s hlen

/-- Witness for C1: a window already holding 600 timestamps (the 601st call)
is delayed, then admitted. -/
theorem rateLimiter_acquire_spec_witness :
    ∃ s2 tAdmit,
      acquireLoop 2 600 300000 0 (List.replicate 600 (0 : Int)) =
        some (s2, tAdmit) :=
  (rateLimiter_acquire_spec 0 (List.replicate 600 (0 : Int))
    (by rw [List.length_replicate])).2

/-! ## Relational store with upsert-by-key

The persistence layer is a generic relational store (spec §1, §6): a table is
a list of rows, and `upsert(record, { onConflict: key, ignoreDuplicates:
false })` overwrites every column of the conflicting row (full-attribute
overwrite) or inserts a fresh row when no row carries the key. -/

/-- Supabase `upsert` with `onConflict` on `key` and `ignoreDuplicates:
false`: rows whose key equals the new record's key are overwritten with the
record; otherwise the record is appended. -/
def upsertRow {K R : Type} [DecidableEq K] (key : R → K)
    (table : List R) (r : R) : List R :=
  if table.any (fun x => key x = key r) then
    table.map (fun x => if key x = key r then r else x)
  else table ++ [r]

/-- A table respects a unique constraint on `key` when no key value occurs in
more than one row. -/
def UniqKey {K R : Type} [DecidableEq K] (key : R → K) (table : List R) : Prop :=
  ∀ k, table.countP (fun x => key x = k) ≤ 1

theorem countP_map_overwrite_self {K R : Type} [DecidableEq K] (key : R → K)
    (t : List R) (r : R) :
    (t.map (fun x => if key x = key r then r else x)).countP
        (fun x => key x = key r) =
      t.countP (fun x => key x = key r) := by
  induction t with
  | nil => simp
  | cons a as ih =>
    by_cases ha : key a = key r
    · simp [List.countP_cons, ha, ih]
    · simp [List.countP_cons, ha, ih]

theorem countP_map_overwrite_other {K R : Type} [DecidableEq K] (key : R → K)
    (t : List R) (r : R) (k : K) (hk : k ≠ key r) :
    (t.map (fun x => if key x = key r then r else x)).countP
        (fun x => key x = k) =
      t.countP (fun x => key x = k) := by
  have h2 : ¬ key r = k := fun hh => hk hh.symm
  induction t with
  | nil => simp
  | cons a as ih =>
    by_cases ha : key a = key r
    · have h1 : ¬ key a = k := by rw [ha]; exact h2
      simp [List.countP_cons, ha, h1, h2, ih]
    · simp [List.countP_cons, ha, ih]

theorem upsert_countP_self {K R : Type} [DecidableEq K] (key : R → K)
    (t : List R) (r : R) :
    (upsertRow key t r).countP (fun x => key x = key r) =
      if t.any (fun x => key x = key r) then
        t.countP (fun x => key x = key r)
      else t.countP (fun x => key x = key r) + 1 := by
  unfold upsertRow
  by_cases h : t.any (fun x => key x = key r)
  · rw [if_pos h, if_pos h]
    exact countP_map_overwrite_self key t r
  · rw [if_neg h, if_neg h, List.countP_append]
    simp

theorem upsert_countP_other {K R : Type} [DecidableEq K] (key : R → K)
    (t : List R) (r : R) (k : K) (hk : k ≠ key r) :
    (upsertRow key t r).countP (fun x => key x = k) =
      t.countP (fun x => key x = k) := by
  unfold upsertRow
  by_cases h : t.any (fun x => key x = key r)
  · rw [if_pos h]
    exact countP_map_overwrite_other key t r k hk
  · rw [if_neg h, List.countP_append]
    have h2 : ¬ key r = k := fun hh => hk hh.symm
    simp [h2]

theorem upsert_uniq {K R : Type} [DecidableEq K] (key : R → K)
    {t : List R} (huniq : UniqKey key t) (r : R) :
    UniqKey key (upsertRow key t r) := by
  intro k
  by_cases hk : k = key r
  · rw [hk, upsert_countP_self]
    by_cases h : t.any (fun x => key x = key r)
    · rw [if_pos h]; exact huniq (key r)
    · rw [if_neg h]
      have h0 : t.countP (fun x => key x = key r) = 0 := by
        rw [List.countP_eq_zero]
        intro a ha
        simp only [decide_eq_true_eq]
        intro hak
        exact h (List.any_eq_true.mpr ⟨a, ha, by simp [hak]⟩)
      omega
  · rw [upsert_countP_other key t r k hk]
    exact huniq k

theorem upsert_countP_pos {K R : Type} [DecidableEq K] (key : R → K)
    (t : List R) (r : R) :
    1 ≤ (upsertRow key t r).countP (fun x => key x = key r) := by
  rw [upsert_countP_self]
  by_cases h : t.any (fun x => key x = key r)
  · rw [if_pos h]
    rcases List.any_eq_true.mp h with ⟨a, ha, hak⟩
    have h0 : 0 < t.countP (fun x => key x = key r) :=
      List.countP_pos_iff.mpr ⟨a, ha, hak⟩
    omega
  · rw [if_neg h]; omega

theorem upsert_any_self {K R : Type} [DecidableEq K] (key : R → K)
    (t : List R) (r : R) :
    (upsertRow key t r).any (fun x => key x = key r) = true := by
  have h1 := upsert_countP_pos key t r
  have h0 : 0 < (upsertRow key t r).countP (fun x => key x = key r) := by omega
  rcases List.countP_pos_iff.mp h0 with ⟨a, ha, hak⟩
  exact List.any_eq_true.mpr ⟨a, ha, hak⟩

theorem upsert_find_self {K R : Type} [DecidableEq K] (key : R → K)
    (t : List R) (r : R) :
    (upsertRow key t r).find? (fun x => key x = key r) = some r := by
  unfold upsertRow
  by_cases h : t.any (fun x => key x = key r)
  · rw [if_pos h]
    induction t with
    | nil => simp at h
    | cons a as ih =>
      by_cases ha : key a = key r
      · simp [List.find?, ha]
      · have h2 : as.any (fun x => key x = key r) = true := by
          rcases List.any_eq_true.mp h with ⟨b, hb, hbk⟩
          rcases List.mem_cons.mp hb with rfl | hb2
          · exact absurd (by simpa using hbk) ha
          · exact List.any_eq_true.mpr ⟨b, hb2, hbk⟩
        simpa [List.find?, ha] using ih h2
  · rw [if_neg h]
    induction t with
    | nil => simp
    | cons a as ih =>
      have ha : ¬ key a = key r := by
        intro hak
        exact h (List.any_eq_true.mpr ⟨a, List.mem_cons_self a as, by simp [hak]⟩)
      have h2 : ¬ as.any (fun x => key x = key r) = true := by
        intro hh
        rcases List.any_eq_true.mp hh with ⟨b, hb, hbk⟩
        exact h (List.any_eq_true.mpr ⟨b, List.mem_cons.mpr (Or.inr hb), hbk⟩)
      simpa [List.find?, ha] using ih h2

/-! ## Companies table and Companies House write-back

Rows of the `companies` table (`src/1_basic_schema.sql`, which declares
`company_number text NOT NULL UNIQUE`) and the write-back of Companies House
search results (`cacheCompaniesHouseResults`, search route, part_017 lines
183-209).  Date strings pass through a caller-supplied `toDate` conversion,
standing for `new Date(s).toISOString().split('T')[0]`. -/

structure CompanyRow where
  company_number : String
  name : String
  status : String
  company_type : String
  incorporation_date : Option String
  registered_address : Option String
  jurisdiction : String
  last_synced_at : Option Int
  deriving Repr, DecidableEq

/-- A Companies House search item (schema `CompaniesHouseSearchResultSchema`,
`ai-analysis.ts` lines 335-342). -/
structure CHSearchResult where
  company_number : String
  title : String
  company_status : String
  company_type : Option String
  date_of_creation : Option String
  address_snippet : Option String
  deriving Repr, DecidableEq

/-- `mapCompaniesHouseStatus` (part_017 lines 214-225): translate an upstream
status string into the local enum, defaulting to `"unknown"`. -/
def mapCompaniesHouseStatus (status : String) : String :=
  let s := status.toLower
  if s = "active" then "active"
  else if s = "dissolved" then "dissolved"
  else if s = "liquidation" then "liquidation"
  else if s = "administration" then "suspended"
  else if s = "dormant" then "dormant"
  else if s = "strike-off" then "strike_off"
  else "unknown"

/-- The `companyData` record built in `cacheCompaniesHouseResults`
(part_017 lines 186-195). -/
def chToCompanyRow (toDate : String → String) (now : Int)
    (c : CHSearchResult) : CompanyRow :=
  { company_number := c.company_number
    name := c.title
    status := mapCompaniesHouseStatus c.company_status
    company_type := c.company_type.getD "other"
    incorporation_date := c.date_of_creation.map toDate
    registered_address := c.address_snippet
    jurisdiction := "GB"
    last_synced_at := some now }

/-- `cacheCompaniesHouseResults` (part_017 lines 183-209): upsert each mapped
result into `companies`, conflict target `company_number`. -/
def cacheCompaniesHouseResults (toDate : String → String) (now : Int)
    (table : List CompanyRow) (results : List CHSearchResult) :
    List CompanyRow :=
  results.foldl
    (fun tbl c => upsertRow CompanyRow.company_number tbl
      (chToCompanyRow toDate now c)) table

/-- **C5**: replaying the same registry fetch through the cache write-back is
idempotent — after upserting the same Companies House record twice into a
table satisfying the `company_number` unique constraint, exactly one row
carries that company number, and that row equals the last-applied record
(full-attribute overwrite, including the second write's sync timestamp). -/
theorem upsertEntity_idempotent (toDate : String → String) (now1 now2 : Int)
    (t : List CompanyRow) (c : CHSearchResult)
    (huniq : UniqKey CompanyRow.company_number t) :
    (cacheCompaniesHouseResults toDate now2
        (cacheCompaniesHouseResults toDate now1 t [c]) [c]).countP
        (fun x => x.company_number = c.company_number) = 1 ∧
    (cacheCompaniesHouseResults toDate now2
        (cacheCompaniesHouseResults toDate now1 t [c]) [c]).find?
        (fun x => x.company_number = c.company_number) =
      some (chToCompanyRow toDate now2 c) := by
  have hkey1 : (chToCompanyRow toDate now1 c).company_number =
      c.company_number := rfl
  have hkey2 : (chToCompanyRow toDate now2 c).company_number =
      c.company_number := rfl
  have hfold : ∀ (toD : String → String) (n : Int) (tb : List CompanyRow),
      cacheCompaniesHouseResults toD n tb [c] =
        upsertRow CompanyRow.company_number tb (chToCompanyRow toD n c) :=
    fun _ _ _ => rfl
  rw [hfold, hfold]
  set r1 := chToCompanyRow toDate now1 c
  set r2 := chToCompanyRow toDate now2 c
  have hk12 : CompanyRow.company_number r1 = CompanyRow.company_number r2 := rfl
  have huniq1 : UniqKey CompanyRow.company_number
      (upsertRow CompanyRow.company_number t r1) :=
    upsert_uniq CompanyRow.company_number huniq r1
  constructor
  · rw [← hkey2]
    have hcount := upsert_countP_self CompanyRow.company_number
      (upsertRow CompanyRow.company_number t r1) r2
    have hany : (upsertRow CompanyRow.company_number t r1).any
        (fun x => CompanyRow.company_number x = CompanyRow.company_number r2) =
          true := by
      have := upsert_any_self CompanyRow.company_number t r1
      simpa [hk12] using this
    rw [hcount, if_pos hany]
    have hpos : 1 ≤ (upsertRow CompanyRow.company_number t r1).countP
        (fun x => CompanyRow.company_number x =
          CompanyRow.company_number r2) := by
      have := upsert_countP_pos CompanyRow.company_number t r1
      simpa [hk12] using this
    have hle := huniq1 (CompanyRow.company_number r2)
    omega
  · rw [← hkey2]
    exact upsert_find_self CompanyRow.company_number _ r2

/-- Witness for C5: upserting a concrete record into an empty table twice
leaves a single row equal to the second write. -/
theorem upsertEntity_idempotent_witness :
    (cacheCompaniesHouseResults id 2000
        (cacheCompaniesHouseResults id 1000 []
          [⟨"12345678", "TechCorp Limited", "active", none, none, none⟩])
        [⟨"12345678", "TechCorp Limited", "active", none, none, none⟩]).countP
        (fun x => x.company_number = "12345678") = 1 :=
  (upsertEntity_idempotent id 1000 2000 []
    ⟨"12345678", "TechCorp Limited", "active", none, none, none⟩
    (fun k => by simp)).1

/-! ## Search route: merge, dedup, pagination (part_017 lines 288-321)

In `'both'` sources mode the route queries the local store, queries Companies
House only when the local list is shorter than the effective limit,
concatenates local-first, deduplicates by `company_number` keeping the first
occurrence (`reduce` with a `find` existence check), and paginates with
`slice(startIndex, startIndex + actualLimit)`.  The `src` tag records each
candidate's provenance in the model (registry rows are built with
`source: 'companies_house'` in the route; local rows come from the local
store's RPC). -/

inductive CandidateSource where
  | loc
  | ch
  deriving Repr, DecidableEq

structure Candidate where
  company_number : String
  name : String
  src : CandidateSource
  deriving Repr, DecidableEq

/-- One step of the dedup `reduce`: keep `c` only when no earlier kept
candidate carries its company number. -/
def dedupStep (acc : List Candidate) (c : Candidate) : List Candidate :=
  if acc.any (fun x => x.company_number = c.company_number) then acc
  else acc ++ [c]

/-- `allResults.reduce(...)` dedup by company number, first occurrence wins
(part_017 lines 311-317). -/
def dedupByNumber (l : List Candidate) : List Candidate := l.foldl dedupStep []

/-- A table whose company numbers are pairwise distinct in the counting
sense, the invariant the dedup accumulator maintains. -/
def DedupInv (acc : List Candidate) : Prop :=
  ∀ m, acc.countP (fun x => x.company_number = m) ≤ 1

theorem find_append_of_any {p : Candidate → Bool} {l1 : List Candidate}
    (l2 : List Candidate) (h : l1.any p = true) :
    (l1 ++ l2).find? p = l1.find? p := by
  induction l1 with
  | nil => simp at h
  | cons a as ih =>
    by_cases hpa : p a
    · simp [List.find?, hpa]
    · have h2 : as.any p = true := by
        rcases List.any_eq_true.mp h with ⟨b, hb, hbp⟩
        rcases List.mem_cons.mp hb with rfl | hb2
        · exact absurd hbp (by simp [hpa])
        · exact List.any_eq_true.mpr ⟨b, hb2, hbp⟩
      simpa [List.find?, hpa] using ih h2

theorem dedup_foldl_find (l : List Candidate) :
    ∀ (acc : List Candidate) (n : String),
      (l.foldl dedupStep acc).find? (fun x => x.company_number = n) =
        (acc ++ l).find? (fun x => x.company_number = n) := by
  induction l with
  | nil => intro acc n; simp
  | cons c cs ih =>
    intro acc n
    rw [List.foldl_cons]
    by_cases h : acc.any (fun x => x.company_number = c.company_number)
    · have hstep : dedupStep acc c = acc := by unfold dedupStep; rw [if_pos h]
      rw [hstep, ih acc n]
      by_cases hacc : acc.any (fun x => x.company_number = n)
      · rw [find_append_of_any cs hacc, find_append_of_any (c :: cs) hacc]
      · have hfacc : acc.find? (fun x => x.company_number = n) = none := by
          rw [List.find?_eq_none]
          intro x hx
          simp only [decide_eq_true_eq]
          intro hxn
          exact hacc (List.any_eq_true.mpr ⟨x, hx, by simp [hxn]⟩)
        have hcn : ¬ c.company_number = n := by
          intro hcn
          rcases List.any_eq_true.mp h with ⟨x, hx, hxc⟩
          apply hacc
          refine List.any_eq_true.mpr ⟨x, hx, ?_⟩
          simp only [decide_eq_true_eq] at hxc ⊢
          rw [hxc, hcn]
        rw [List.find?_append, List.find?_append, hfacc]
        simp [List.find?, hcn]
    · have hstep : dedupStep acc c = acc ++ [c] := by
        unfold dedupStep; rw [if_neg h]
      rw [hstep, ih (acc ++ [c]) n, List.append_assoc]
      rfl

theorem dedup_foldl_countP (l : List Candidate) :
    ∀ (acc : List Candidate) (n : String), DedupInv acc →
      (l.foldl dedupStep acc).countP (fun x => x.company_number = n) =
        if (acc ++ l).any (fun x => x.company_number = n) then 1 else 0 := by
  induction l with
  | nil =>
    intro acc n hinv
    rw [List.append_nil, List.foldl_nil]
    by_cases hacc : acc.any (fun x => x.company_number = n)
    · rw [if_pos hacc]
      rcases List.any_eq_true.mp hacc with ⟨x, hx, hxn⟩
      have hpos : 0 < acc.countP (fun x => x.company_number = n) :=
        List.countP_pos_iff.mpr ⟨x, hx, hxn⟩
      have := hinv n
      omega
    · rw [if_neg hacc, List.countP_eq_zero]
      intro x hx
      simp only [decide_eq_true_eq]
      intro hxn
      exact hacc (List.any_eq_true.mpr ⟨x, hx, by simp [hxn]⟩)
  | cons c cs ih =>
    intro acc n hinv
    rw [List.foldl_cons]
    by_cases h : acc.any (fun x => x.company_number = c.company_number)
    · have hstep : dedupStep acc c = acc := by unfold dedupStep; rw [if_pos h]
      rw [hstep, ih acc n hinv]
      by_cases hacc : acc.any (fun x => x.company_number = n)
      · have h1 : (acc ++ cs).any (fun x => x.company_number = n) = true := by
          rcases List.any_eq_true.mp hacc with ⟨x, hx, hxn⟩
          exact List.any_eq_true.mpr ⟨x, List.mem_append_left cs hx, hxn⟩
        have h2 : (acc ++ c :: cs).any (fun x => x.company_number = n) =
            true := by
          rcases List.any_eq_true.mp hacc with ⟨x, hx, hxn⟩
          exact List.any_eq_true.mpr ⟨x, List.mem_append_left _ hx, hxn⟩
        rw [h1, h2]
      · have hcn : ¬ c.company_number = n := by
          intro hcn
          rcases List.any_eq_true.mp h with ⟨x, hx, hxc⟩
          apply hacc
          refine List.any_eq_true.mpr ⟨x, hx, ?_⟩
          simp only [decide_eq_true_eq] at hxc ⊢
          rw [hxc, hcn]
        have heq : (acc ++ c :: cs).any (fun x => x.company_number = n) =
            (acc ++ cs).any (fun x => x.company_number = n) := by
          simp [List.any_append, List.any_cons, hcn]
        rw [heq]
    · have hstep : dedupStep acc c = acc ++ [c] := by
        unfold dedupStep; rw [if_neg h]
      have hinv2 : DedupInv (acc ++ [c]) := by
        intro m
        rw [List.countP_append]
        by_cases hcm : c.company_number = m
        · have hzero : acc.countP (fun x => x.company_number = m) = 0 := by
            rw [List.countP_eq_zero]
            intro x hx
            simp only [decide_eq_true_eq]
            intro hxm
            exact h (List.any_eq_true.mpr ⟨x, hx, by simp [hxm, hcm]⟩)
          simp [hzero, List.countP_cons, hcm]
        · have := hinv m
          simp [List.countP_cons, hcm]
          omega
      rw [hstep, ih (acc ++ [c]) n hinv2, List.append_assoc]
      rfl

/-- Outcome of the search route's `'both'` mode: whether Companies House was
queried, the deduplicated list (reported as `pagination.total`), and the page
returned to the caller. -/
structure SearchMergeOut where
  chQueried : Bool
  uniqueResults : List Candidate
  results : List Candidate
  deriving Repr, DecidableEq

/-- The `'both'` sources pipeline of the search route (part_017 lines
299-321): Companies House is consulted only when the local list is shorter
than the effective limit; lists are concatenated local-first, deduplicated by
company number, and sliced to the requested page. -/
def searchBothMode (localResults chResults : List Candidate)
    (actualLimit page : Nat) : SearchMergeOut :=
  let chUsed := if localResults.length < actualLimit then chResults else []
  let uniq := dedupByNumber (localResults ++ chUsed)
  let startIndex := (page - 1) * actualLimit
  { chQueried := localResults.length < actualLimit
    uniqueResults := uniq
    results := (uniq.drop startIndex).take actualLimit }

/-- **C4**: in `'both'` sources mode the registry is queried only when local
results number fewer than the effective limit; after the local-first
concatenation and first-occurrence dedup, an identifier present in both lists
keeps exactly one entry, namely the first local-sourced one; the returned
page never exceeds the effective limit; and in the spec's scenario (limit 1,
a local match) only the local candidate is returned. -/
theorem searchRoute_merge_spec (localResults chResults : List Candidate)
    (actualLimit page : Nat) :
    ((searchBothMode localResults chResults actualLimit page).chQueried =
        true ↔ localResults.length < actualLimit) ∧
    (∀ n, localResults.any (fun x => x.company_number = n) = true →
      chResults.any (fun x => x.company_number = n) = true →
      (searchBothMode localResults chResults actualLimit
          page).uniqueResults.countP (fun x => x.company_number = n) = 1 ∧
      (searchBothMode localResults chResults actualLimit
          page).uniqueResults.find? (fun x => x.company_number = n) =
        localResults.find? (fun x => x.company_number = n)) ∧
    (searchBothMode localResults chResults actualLimit page).results.length ≤
      actualLimit ∧
    (searchBothMode [⟨"12345678", "TechCorp Limited", .loc⟩]
        [⟨"99999999", "Tech Innovators", .ch⟩] 1 1).results =
      [⟨"12345678", "TechCorp Limited", .loc⟩] := by
  refine ⟨?_, ?_, ?_, by decide⟩
  · simp [searchBothMode]
  · intro n hloc hch
    constructor
    · show (dedupByNumber _).countP _ = 1
      unfold dedupByNumber
      rw [dedup_foldl_countP _ [] n (by intro m; simp)]
      rw [List.nil_append, if_pos]
      rcases List.any_eq_true.mp hloc with ⟨x, hx, hxn⟩
      exact List.any_eq_true.mpr ⟨x, List.mem_append_left _ hx, hxn⟩
    · show (dedupByNumber _).find? _ = _
      unfold dedupByNumber
      rw [dedup_foldl_find _ [] n, List.nil_append,
        find_append_of_any _ hloc]
  · show ((((dedupByNumber _).drop _).take _).length) ≤ _
    exact List.length_take_le _ _

/-- Witness for C4: with one local and one registry candidate sharing the
identifier `"X"` and limit 2, the merged list keeps exactly the local
entry. -/
theorem searchRoute_merge_spec_witness :
    (searchBothMode [⟨"X", "Local Co", .loc⟩] [⟨"X", "Registry Co", .ch⟩]
        2 1).uniqueResults.countP (fun x => x.company_number = "X") = 1 ∧
    (searchBothMode [⟨"X", "Local Co", .loc⟩] [⟨"X", "Registry Co", .ch⟩]
        2 1).uniqueResults.find? (fun x => x.company_number = "X") =
      [Candidate.mk "X" "Local Co" .loc].find?
        (fun x => x.company_number = "X") :=
  (searchRoute_merge_spec [⟨"X", "Local Co", .loc⟩]
    [⟨"X", "Registry Co", .ch⟩] 2 1).2.1 "X" (by decide) (by decide)

/-! ## Company details route (part_016 lines 879-1429)

`GET /api/companies/[companyNumber]`.  The route picks a strategy from
`refresh` and `source` (lines 1302-1366); in the default branch a local row is
served when its `last_synced_at` (read as `last_synced_at || 0`) is younger
than 24 hours, otherwise Companies House is consulted, falling back to the
stale row when the fetch yields no company.  The objects assigned to the
route's `result` variable carry only `company`, `executionTime` and `source`
fields, so the later reads of `result.error` (line 1369) and
`result.notFound` (line 1374) see `undefined`: the `errors` array stays empty
and the 404 decision reduces to `!result.company`. -/

inductive SourceParam where
  | localSrc
  | companiesHouse
  | both
  deriving Repr, DecidableEq

/-- Result of `getCompaniesHouseCompany` (part_016 lines 960-1019): the
cached company row on success, otherwise `none` with the error message the
helper reports (`error` field). -/
structure ChFetch where
  company : Option CompanyRow
  fetchError : Option String
  deriving Repr, DecidableEq

/-- 24 hours in milliseconds, the freshness window of the default branch. -/
def freshWindowMs : Int := 24 * 60 * 60 * 1000

/-- The observable response of the details route. -/
structure DetailsResponse where
  company : Option CompanyRow
  src : String
  remoteCalled : Bool
  errors : List String
  status : Nat
  deriving Repr, DecidableEq

/-- The details route handler (part_016 lines 1298-1409) after
authentication and company-number validation, given the local lookup's
finding and the Companies House fetch outcome. -/
def getDetailsRoute (refresh : Bool) (source : SourceParam) (now : Int)
    (localCompany : Option CompanyRow) (ch : ChFetch) : DetailsResponse :=
  let res : Option CompanyRow × String × Bool :=
    if refresh || source = SourceParam.companiesHouse then
      (ch.company, "companies_house", true)
    else if source = SourceParam.localSrc then
      (localCompany, "local", false)
    else
      match localCompany with
      | some c =>
        if c.last_synced_at.getD 0 > now - freshWindowMs then
          (some c, "local", false)
        else
          (ch.company.orElse (fun _ => some c),
            if ch.company.isSome then "companies_house" else "local", true)
      | none => (ch.company, "companies_house", true)
  { company := res.1
    src := res.2.1
    remoteCalled := res.2.2
    errors := []
    status := if res.1.isSome then 200 else 404 }

/-- **C2**: in the default mode (no refresh, source `both`), a local row
whose sync timestamp is strictly younger than 24 hours is served locally with
no registry call; a row 24 hours old or older (or with no timestamp, read as
epoch 0), or no row at all, triggers the Companies House fetch. -/
theorem details_freshness_spec (now : Int) (c : CompanyRow) (ch : ChFetch) :
    (c.last_synced_at.getD 0 > now - freshWindowMs →
      getDetailsRoute false SourceParam.both now (some c) ch =
        { company := some c, src := "local", remoteCalled := false,
          errors := [], status := 200 }) ∧
    (c.last_synced_at.getD 0 ≤ now - freshWindowMs →
      (getDetailsRoute false SourceParam.both now (some c) ch).remoteCalled =
        true) ∧
    (getDetailsRoute false SourceParam.both now none ch).remoteCalled =
      true := by
  refine ⟨?_, ?_, rfl⟩
  · intro hfresh
    simp only [getDetailsRoute]
    rw [if_neg (by simp), if_neg (by simp)]
    simp only [if_pos hfresh]
    rfl
  · intro hstale
    simp only [getDetailsRoute]
    rw [if_neg (by simp), if_neg (by simp)]
    simp only [if_neg (not_lt.mpr hstale)]

/-- A concrete local row used by witnesses and counterexamples, with the
given sync timestamp. -/
def techCorpRow (ls : Option Int) : CompanyRow :=
  { company_number := "12345678", name := "TechCorp Limited",
    status := "active", company_type := "other",
    incorporation_date := none, registered_address := none,
    jurisdiction := "GB", last_synced_at := ls }

/-- Witness for C2: at `now` = day 100 (in ms), a row synced 23h59m ago is
served locally; a row synced exactly 24h ago goes to the registry. -/
theorem details_freshness_spec_witness :
    (getDetailsRoute false SourceParam.both (100 * 86400000)
        (some (techCorpRow (some (99 * 86400000 + 60000))))
        { company := none, fetchError := none } =
      { company := some (techCorpRow (some (99 * 86400000 + 60000))),
        src := "local", remoteCalled := false, errors := [],
        status := 200 }) ∧
    (getDetailsRoute false SourceParam.both (100 * 86400000)
        (some (techCorpRow (some (99 * 86400000))))
        { company := none, fetchError := none }).remoteCalled = true :=
  ⟨(details_freshness_spec (100 * 86400000) _ _).1 (by decide),
    (details_freshness_spec (100 * 86400000) _ _).2.1 (by decide)⟩

/-- **C3** (code evaluated at the failing input): when the Companies House
fetch fails while a stale local row exists, the route does succeed and serve
the stale row — but the response's `errors` metadata is empty, because the
fetch error on `chResult` is never copied onto `result` and line 1369's
`result.error` reads an absent field.  The claimed annotation does not
happen. -/
theorem details_stale_fallback_unannotated :
    getDetailsRoute false SourceParam.both (100 * 86400000)
        (some (techCorpRow (some 0)))
        { company := none,
          fetchError := some "Failed to fetch from Companies House API" } =
      { company := some (techCorpRow (some 0)),
        src := "local", remoteCalled := true, errors := [],
        status := 200 } := by decide

/-! ## Quota gate (search route, part_017 lines 34-104 and 268-281)

`checkSearchLimit` counts the caller's `search_queries` rows with
`created_at` in `[todayT00:00:00.000Z, todayT23:59:59.999Z)` — note the
exclusive upper bound at the day's last millisecond — and admits while the
count is below the tier's daily ceiling; the `enterprise` ceiling `-1` means
unlimited and skips the lookup; a lookup error yields `false` (deny).  A
denied request is answered with status 429 carrying the ceiling and the
tier.  Times are epoch milliseconds. -/

inductive Tier where
  | free
  | basic
  | pro
  | enterprise
  deriving Repr, DecidableEq

/-- `SUBSCRIPTION_LIMITS[tier].searchesPerDay` (part_017 lines 34-51). -/
def searchesPerDay : Tier → Int
  | .free => 5
  | .basic => 100
  | .pro => 1000
  | .enterprise => -1

/-- `SUBSCRIPTION_LIMITS[tier].resultsPerSearch` (part_017 lines 34-51). -/
def resultsPerSearch : Tier → Nat
  | .free => 5
  | .basic => 20
  | .pro => 50
  | .enterprise => 100

/-- Milliseconds already elapsed today are discarded: start of the UTC day
containing `t` (the route derives `today` from the ISO date part). -/
def startOfDay (t : Nat) : Nat := t / 86400000 * 86400000

/-- Membership in the route's counting window for the day of `now`:
`created_at >= todayT00:00:00.000Z && created_at < todayT23:59:59.999Z`. -/
def inTodayWindow (now t : Nat) : Bool :=
  startOfDay now ≤ t && t < startOfDay now + 86399999

/-- `checkSearchLimit` (part_017 lines 82-104): `log` is the caller's logged
request times; `lookupFails` models a store error on the count query. -/
def checkSearchLimit (tier : Tier) (log : List Nat) (lookupFails : Bool)
    (now : Nat) : Bool :=
  if searchesPerDay tier = -1 then true
  else if lookupFails then false
  else ((log.filter (inTodayWindow now)).length : Int) < searchesPerDay tier

/-- Admission decision of the search route (part_017 lines 271-281): a
denial is the distinct 429 response carrying the ceiling and the tier. -/
inductive SearchAdmit where
  | admitted
  | denied (limit : Int) (tier : Tier)
  deriving Repr, DecidableEq

def searchRouteAdmit (tier : Tier) (log : List Nat) (lookupFails : Bool)
    (now : Nat) : SearchAdmit :=
  if checkSearchLimit tier log lookupFails now then .admitted
  else .denied (searchesPerDay tier) tier

/-- A sequence of search requests at the given times: each admitted request
is logged (`logSearchQuery`, part_017 lines 325-331) before the next one is
decided; denied requests return early and are not logged. -/
def runSearches (tier : Tier) : List Nat → List Nat → List SearchAdmit
  | _, [] => []
  | log, t :: ts =>
    let d := searchRouteAdmit tier log false t
    d :: runSearches tier (if d = .admitted then log ++ [t] else log) ts

/-- `t` lies in day `d` strictly before the day's final millisecond — the
exact interval the route's count query covers. -/
def SameDay (d t : Nat) : Prop :=
  d * 86400000 ≤ t ∧ t < d * 86400000 + 86399999

instance (d t : Nat) : Decidable (SameDay d t) :=
  inferInstanceAs (Decidable (d * 86400000 ≤ t ∧ t < d * 86400000 + 86399999))

theorem startOfDay_sameDay {d t : Nat} (h : SameDay d t) :
    startOfDay t = d * 86400000 := by
  rcases h with ⟨h1, h2⟩
  unfold startOfDay
  omega

theorem inTodayWindow_sameDay {d now t : Nat} (hnow : SameDay d now)
    (ht : SameDay d t) : inTodayWindow now t = true := by
  unfold inTodayWindow
  rw [startOfDay_sameDay hnow]
  rcases ht with ⟨h1, h2⟩
  simp only [Bool.and_eq_true, decide_eq_true_eq]
  omega

theorem checkSearchLimit_free_sameDay {d now : Nat} {log : List Nat}
    (hnow : SameDay d now) (hlog : ∀ t ∈ log, SameDay d t) :
    checkSearchLimit .free log false now = decide (log.length < 5) := by
  unfold checkSearchLimit
  have hfilter : log.filter (inTodayWindow now) = log :=
    List.filter_eq_self.mpr fun t ht => inTodayWindow_sameDay hnow (hlog t ht)
  simp only [searchesPerDay, hfilter]
  norm_num

theorem runSearches_free_sameDay (d : Nat) :
    ∀ (times log : List Nat), (∀ t ∈ times, SameDay d t) →
      (∀ t ∈ log, SameDay d t) →
      runSearches .free log times =
        (List.range times.length).map
          (fun i => if log.length + i < 5 then SearchAdmit.admitted
            else SearchAdmit.denied 5 .free) := by
  intro times
  induction times with
  | nil => intro log _ _; rfl
  | cons t ts ih =>
    intro log htimes hlog
    have ht : SameDay d t := htimes t (List.mem_cons_self t ts)
    have hts : ∀ x ∈ ts, SameDay d x :=
      fun x hx => htimes x (List.mem_cons.mpr (Or.inr hx))
    have hcheck := checkSearchLimit_free_sameDay ht hlog
    show searchRouteAdmit .free log false t :: runSearches .free
        (if searchRouteAdmit .free log false t = .admitted then log ++ [t]
          else log) ts = _
    by_cases hlt : log.length < 5
    · have hadm : searchRouteAdmit .free log false t = .admitted := by
        unfold searchRouteAdmit
        rw [hcheck, if_pos (by simpa using hlt)]
      rw [hadm, if_pos rfl]
      have hlog2 : ∀ x ∈ log ++ [t], SameDay d x := by
        intro x hx
        rcases List.mem_append.mp hx with hx1 | hx2
        · exact hlog x hx1
        · rw [List.mem_singleton.mp hx2]; exact ht
      rw [ih (log ++ [t]) hts hlog2]
      rw [List.length_cons, List.range_succ_eq_map, List.map_cons,
        List.map_map]
      congr 1
      · rw [if_pos (by omega)]
      · apply List.map_congr_left
        intro i _
        simp only [Function.comp_apply, List.length_append,
          List.length_singleton]
        congr 1
        simp only [eq_iff_iff]
        omega
    · have hden : searchRouteAdmit .free log false t = .denied 5 .free := by
        unfold searchRouteAdmit
        rw [hcheck, if_neg (by simpa using hlt)]
        rfl
      rw [hden, if_neg (by simp)]
      rw [ih log hts hlog]
      rw [List.length_cons, List.range_succ_eq_map, List.map_cons,
        List.map_map]
      congr 1
      · rw [if_neg (by omega)]
      · apply List.map_congr_left
        intro i _
        simp only [Function.comp_apply]
        congr 1
        simp only [eq_iff_iff]
        omega

/-- Counterexample to **C6** as stated: six searches issued at the final
millisecond of the UTC day (offset 86399999 = 23:59:59.999) are all
admitted, the sixth included, because the count query's upper bound
`< todayT23:59:59.999Z` excludes entries logged at exactly that
millisecond. -/
theorem quota_sixth_call_counterexample :
    runSearches .free [] (List.replicate 6 86399999) =
      List.replicate 6 SearchAdmit.admitted := by decide

/-- **C6** (amended): for searches logged strictly before the day's final
millisecond (the interval the count query covers), a free-tier caller is
admitted on searches 1-5 and denied on the 6th with the 429 response
carrying ceiling 5 and the tier; at UTC day rollover the count restarts at
0 and the next search is admitted; the unlimited tier is never denied. -/
theorem quota_daily_limit_amended (d t1 t2 t3 t4 t5 t6 t7 : Nat)
    (h1 : SameDay d t1) (h2 : SameDay d t2) (h3 : SameDay d t3)
    (h4 : SameDay d t4) (h5 : SameDay d t5) (h6 : SameDay d t6)
    (h7 : SameDay (d + 1) t7) :
    runSearches .free [] [t1, t2, t3, t4, t5, t6] =
      [SearchAdmit.admitted, .admitted, .admitted, .admitted, .admitted,
        .denied 5 .free] ∧
    checkSearchLimit .free [t1, t2, t3, t4, t5] false t7 = true ∧
    (∀ (log : List Nat) (b : Bool) (now : Nat),
      checkSearchLimit .enterprise log b now = true) := by
  refine ⟨?_, ?_, fun log b now => by simp [checkSearchLimit, searchesPerDay]⟩
  · have hmem : ∀ t ∈ [t1, t2, t3, t4, t5, t6], SameDay d t := by
      intro t ht
      simp only [List.mem_cons, List.not_mem_nil, or_false] at ht
      rcases ht with rfl | rfl | rfl | rfl | rfl | rfl <;> assumption
    rw [runSearches_free_sameDay d [t1, t2, t3, t4, t5, t6] []
      hmem (by intro t ht; cases ht)]
    rfl
  · have hout : ∀ t, SameDay d t → inTodayWindow t7 t = false := by
      intro t ht
      unfold inTodayWindow
      rw [startOfDay_sameDay h7]
      rcases ht with ⟨ha, hb⟩
      have hlt : ¬((d + 1) * 86400000 ≤ t) := by omega
      simp [hlt]
    unfold checkSearchLimit
    simp only [searchesPerDay]
    norm_num
    simp [List.filter_cons, hout t1 h1, hout t2 h2, hout t3 h3,
      hout t4 h4, hout t5 h5]

/-- Witness for the amended C6: six searches on day 0 (offsets 0-5) and a
seventh at the start of day 1. -/
theorem quota_daily_limit_amended_witness :
    runSearches .free [] [0, 1, 2, 3, 4, 5] =
      [SearchAdmit.admitted, .admitted, .admitted, .admitted, .admitted,
        .denied 5 .free] ∧
    checkSearchLimit .free [0, 1, 2, 3, 4] false 86400000 = true :=
  ⟨(quota_daily_limit_amended 0 0 1 2 3 4 5 86400000 (by decide) (by decide)
      (by decide) (by decide) (by decide) (by decide) (by decide)).1,
    (quota_daily_limit_amended 0 0 1 2 3 4 5 86400000 (by decide) (by decide)
      (by decide) (by decide) (by decide) (by decide) (by decide)).2.1⟩

/-- **C10**: quota admission fails closed — when the count lookup errors,
every tier with a finite daily ceiling is denied with the quota-exceeded
response carrying its ceiling and tier, regardless of the caller's actual
usage; the unlimited tier skips the lookup and is always admitted. -/
theorem quota_fail_closed (log : List Nat) (now : Nat) (b : Bool) :
    searchRouteAdmit .free log true now = .denied 5 .free ∧
    searchRouteAdmit .basic log true now = .denied 100 .basic ∧
    searchRouteAdmit .pro log true now = .denied 1000 .pro ∧
    checkSearchLimit .enterprise log b now = true := by
  refine ⟨?_, ?_, ?_, by simp [checkSearchLimit, searchesPerDay]⟩ <;>
    simp [searchRouteAdmit, checkSearchLimit, searchesPerDay]

/-! ## Bulk route (part_016 lines 341-785)

`POST /api/companies/bulk`: tier-gated access (`checkBulkAccess`), Zod size
ceilings (`BulkSearchSchema` max 100 searches, `BulkDetailsSchema` max 50
company numbers), a per-tier batch ceiling, and per-item processing in
`handleBulkDetails` — where every item contributes one success or one
failure entry and a failing item `continue`s to the next — and in
`handleBulkSearch`, where every item pushes a results entry and a failing
Companies House call additionally pushes an error entry. -/

/-- `isValidCompanyNumber` (`ai-analysis.ts` lines 690-695): strip
non-alphanumeric characters, then require 2 to 8 remaining characters. -/
def cleanedCompanyNumber (s : String) : List Char :=
  s.toList.filter (fun c => c.isAlpha || c.isDigit)

def isValidCompanyNumber (s : String) : Bool :=
  2 ≤ (cleanedCompanyNumber s).length && (cleanedCompanyNumber s).length ≤ 8

/-- How one bulk-details item resolves under the default options
(source `both`, no refresh): found locally, fetched remotely, the remote
fetch throws, or the remote profile has no company. -/
inductive ItemOutcome where
  | localHit (c : CompanyRow)
  | remoteOk (c : CompanyRow)
  | remoteErr (msg : String)
  | remoteNotFound
  deriving Repr, DecidableEq

structure BulkDetailsSuccess where
  companyNumber : String
  company : CompanyRow
  deriving Repr, DecidableEq

structure BulkDetailsFailure where
  companyNumber : String
  error : String
  deriving Repr, DecidableEq

/-- The body of `handleBulkDetails`'s loop for one item (part_016 lines
524-612): invalid numbers, remote errors and missing companies each push a
failure entry and continue; otherwise the resolved company is a success
entry. -/
def bulkDetailsItem (item : String × ItemOutcome) :
    Sum BulkDetailsSuccess BulkDetailsFailure :=
  if isValidCompanyNumber item.1 = false then
    Sum.inr ⟨item.1, "Invalid company number format"⟩
  else
    match item.2 with
    | .localHit c => Sum.inl ⟨item.1, c⟩
    | .remoteOk c => Sum.inl ⟨item.1, c⟩
    | .remoteErr msg => Sum.inr ⟨item.1, "Companies House error: " ++ msg⟩
    | .remoteNotFound => Sum.inr ⟨item.1, "Company not found"⟩

/-- `handleBulkDetails` (part_016 lines 519-615): the loop over
`companyNumbers`, collecting `results` and `errors` in input order. -/
def handleBulkDetails : List (String × ItemOutcome) →
    List BulkDetailsSuccess × List BulkDetailsFailure
  | [] => ([], [])
  | item :: rest =>
    let acc := handleBulkDetails rest
    match bulkDetailsItem item with
    | Sum.inl r => (r :: acc.1, acc.2)
    | Sum.inr e => (acc.1, e :: acc.2)

/-! ### Bulk search handler (part_016 lines 422-513)

One loop pass for a search item in `'both'` mode: the local RPC list is
taken as found; Companies House is called only when the local list is
shorter than the per-search limit; a throwing Companies House call pushes an
`errors` entry inside the inner catch (lines 473-479) and then falls
through — the item still pushes its `results` entry with its partial,
local-only results (lines 484-491).  A failing search item therefore
contributes entries to both lists. -/

/-- How a bulk-search item's Companies House call resolves: a result list,
or a thrown `CompaniesHouseError`. -/
inductive ChSearchOutcome where
  | ok (cs : List Candidate)
  | err (msg : String)
  deriving Repr, DecidableEq

/-- One element of `data.searches` together with how its sub-queries
resolve: the mapped local RPC list (source tag `local`, lines 440-445) and
the Companies House outcome. -/
structure BulkSearchItem where
  query : String
  localResults : List Candidate
  ch : ChSearchOutcome
  deriving Repr, DecidableEq

/-- The per-item `results` entry (part_016 lines 484-491):
`searchResults.slice(0, limit)` and the raw count. -/
structure BulkSearchResultEntry where
  query : String
  results : List Candidate
  resultCount : Nat
  deriving Repr, DecidableEq

/-- The per-item `errors` entry (part_016 lines 474-478). -/
structure BulkSearchError where
  query : String
  error : String
  deriving Repr, DecidableEq

/-- One pass of `handleBulkSearch`'s loop in `'both'` mode (part_016 lines
430-500): the `results` entry the item always pushes, paired with the
`errors` entry it pushes when the Companies House call throws. -/
def bulkSearchItem (limit : Nat) (item : BulkSearchItem) :
    BulkSearchResultEntry × Option BulkSearchError :=
  if item.localResults.length < limit then
    match item.ch with
    | ChSearchOutcome.ok cs =>
      let merged := item.localResults ++ cs
      (⟨item.query, merged.take limit, merged.length⟩, none)
    | ChSearchOutcome.err msg =>
      (⟨item.query, item.localResults.take limit,
          item.localResults.length⟩,
        some ⟨item.query, "Companies House error: " ++ msg⟩)
  else
    (⟨item.query, item.localResults.take limit,
        item.localResults.length⟩, none)

/-- `handleBulkSearch` (part_016 lines 422-513): the loop over
`data.searches`, collecting `results` and `errors` in input order. -/
def handleBulkSearch (limit : Nat) :
    List BulkSearchItem → List BulkSearchResultEntry × List BulkSearchError
  | [] => ([], [])
  | item :: rest =>
    let acc := handleBulkSearch limit rest
    match bulkSearchItem limit item with
    | (r, none) => (r :: acc.1, acc.2)
    | (r, some e) => (r :: acc.1, e :: acc.2)

/-- Counterexample to **C7** as stated: in a 3-item bulk search whose second
item's Companies House call throws, the failing item pushes its error entry
and then still pushes a results entry with its partial (local) results —
the batch returns 3 result entries plus 1 failure entry, not the claimed
2 success outcomes and 1 failure outcome. -/
theorem bulk_search_double_entry_counterexample :
    handleBulkSearch 5
        [⟨"alpha", [⟨"11111111", "Alpha Ltd", CandidateSource.loc⟩],
            ChSearchOutcome.ok []⟩,
          ⟨"beta", [], ChSearchOutcome.err "Failed to search companies"⟩,
          ⟨"gamma", [⟨"33333333", "Gamma Ltd", CandidateSource.loc⟩],
            ChSearchOutcome.ok []⟩] =
      ([⟨"alpha", [⟨"11111111", "Alpha Ltd", CandidateSource.loc⟩], 1⟩,
          ⟨"beta", [], 0⟩,
          ⟨"gamma", [⟨"33333333", "Gamma Ltd", CandidateSource.loc⟩], 1⟩],
        [⟨"beta",
          "Companies House error: Failed to search companies"⟩]) ∧
    (handleBulkSearch 5
        [⟨"alpha", [⟨"11111111", "Alpha Ltd", CandidateSource.loc⟩],
            ChSearchOutcome.ok []⟩,
          ⟨"beta", [], ChSearchOutcome.err "Failed to search companies"⟩,
          ⟨"gamma", [⟨"33333333", "Gamma Ltd", CandidateSource.loc⟩],
            ChSearchOutcome.ok []⟩]).1.length ≠ 2 := by decide

/-- **C7** (amended): no item's failure aborts a bulk batch, and every
failing item contributes a per-item failure entry.  In bulk details each
item contributes exactly one outcome — the batch is the pair of per-item
successes and per-item failures in input order, so a 3-item details batch
whose second item hits an upstream error returns 2 successes and 1 failure.
In bulk search every item contributes a results entry even when its
Companies House call fails — the failing item additionally contributes an
error entry and keeps its partial local results, so the corresponding
3-item search batch returns 3 result entries plus 1 failure entry. -/
theorem bulk_isolation_amended (items : List (String × ItemOutcome))
    (limit : Nat) (searches : List BulkSearchItem) :
    handleBulkDetails items =
      (items.filterMap (fun it => match bulkDetailsItem it with
        | Sum.inl r => some r
        | Sum.inr _ => none),
        items.filterMap (fun it => match bulkDetailsItem it with
        | Sum.inl _ => none
        | Sum.inr e => some e)) ∧
    (handleBulkDetails items).1.length + (handleBulkDetails items).2.length =
      items.length ∧
    handleBulkDetails
        [("11111111", ItemOutcome.remoteOk (techCorpRow (some 0))),
          ("22222222", ItemOutcome.remoteErr "Failed to fetch company data"),
          ("33333333", ItemOutcome.localHit (techCorpRow (some 0)))] =
      ([⟨"11111111", techCorpRow (some 0)⟩,
          ⟨"33333333", techCorpRow (some 0)⟩],
        [⟨"22222222",
          "Companies House error: Failed to fetch company data"⟩]) ∧
    handleBulkSearch limit searches =
      (searches.map (fun it => (bulkSearchItem limit it).1),
        searches.filterMap (fun it => (bulkSearchItem limit it).2)) ∧
    (handleBulkSearch limit searches).1.length = searches.length := by
  refine ⟨?_, ?_, by decide, ?_, ?_⟩
  · induction items with
    | nil => rfl
    | cons item rest ih =>
      show (match bulkDetailsItem item with
        | Sum.inl r => (r :: (handleBulkDetails rest).1,
            (handleBulkDetails rest).2)
        | Sum.inr e => ((handleBulkDetails rest).1,
            e :: (handleBulkDetails rest).2)) = _
      rcases hit : bulkDetailsItem item with r | e <;>
        simp [List.filterMap_cons, hit, ih]
  · induction items with
    | nil => rfl
    | cons item rest ih =>
      show (match bulkDetailsItem item with
        | Sum.inl r => (r :: (handleBulkDetails rest).1,
            (handleBulkDetails rest).2)
        | Sum.inr e => ((handleBulkDetails rest).1,
            e :: (handleBulkDetails rest).2)).1.length +
          (match bulkDetailsItem item with
        | Sum.inl r => (r :: (handleBulkDetails rest).1,
            (handleBulkDetails rest).2)
        | Sum.inr e => ((handleBulkDetails rest).1,
            e :: (handleBulkDetails rest).2)).2.length = _
      rcases hit : bulkDetailsItem item with r | e <;>
        simp only [List.length_cons] <;> omega
  · induction searches with
    | nil => rfl
    | cons item rest ih =>
      show (match bulkSearchItem limit item with
        | (r, none) => (r :: (handleBulkSearch limit rest).1,
            (handleBulkSearch limit rest).2)
        | (r, some e) => (r :: (handleBulkSearch limit rest).1,
            e :: (handleBulkSearch limit rest).2)) = _
      rcases hit : bulkSearchItem limit item with ⟨r, _ | e⟩ <;>
        simp [List.filterMap_cons, List.map_cons, hit, ih]
  · induction searches with
    | nil => rfl
    | cons item rest ih =>
      show (match bulkSearchItem limit item with
        | (r, none) => (r :: (handleBulkSearch limit rest).1,
            (handleBulkSearch limit rest).2)
        | (r, some e) => (r :: (handleBulkSearch limit rest).1,
            e :: (handleBulkSearch limit rest).2)).1.length = _
      rcases hit : bulkSearchItem limit item with ⟨r, _ | e⟩ <;>
        simp only [List.length_cons, ih]

/-- Subscription products the bulk route's `tierMap` recognizes
(part_016 lines 402-408); any other product id — including the basic
product, which this map omits — falls back to `'free'`. -/
inductive Product where
  | basicProd
  | proProd
  | enterpriseProd
  deriving Repr, DecidableEq

structure BulkAccess where
  allowed : Bool
  tier : String
  maxSize : Option Nat
  deriving Repr, DecidableEq

/-- `checkBulkAccess` (part_016 lines 395-416): no subscription ⇒ free,
no bulk; `prod_nexus_pro` ⇒ pro, max 25; `prod_nexus_enterprise` ⇒
enterprise, max 100; any other product falls back to `'free'`, no bulk. -/
def checkBulkAccess (sub : Option Product) : BulkAccess :=
  match sub with
  | none => { allowed := false, tier := "free", maxSize := none }
  | some Product.proProd =>
    { allowed := true, tier := "pro", maxSize := some 25 }
  | some Product.enterpriseProd =>
    { allowed := true, tier := "enterprise", maxSize := some 100 }
  | some Product.basicProd =>
    { allowed := false, tier := "free", maxSize := none }

inductive BulkOp where
  | search
  | details
  deriving Repr, DecidableEq

/-- Observable outcome of the bulk `POST` handler. -/
inductive BulkResponse where
  | featureDenied (tier : String)
  | validationError
  | sizeDenied (limit : Nat) (tier : String)
  | processed (nItems : Nat)
  deriving Repr, DecidableEq

/-- The bulk `POST` handler's admission pipeline (part_016 lines 671-751)
for a batch of `nItems` items: tier gate first (403 with the reported tier),
then the Zod schema ceiling (1-100 searches, 1-50 company numbers — a
violation is a 400 validation error), then the per-tier batch ceiling (400
with the limit and tier). -/
def bulkPost (sub : Option Product) (op : BulkOp) (nItems : Nat) :
    BulkResponse :=
  let access := checkBulkAccess sub
  if access.allowed = false then BulkResponse.featureDenied access.tier
  else
    match op with
    | BulkOp.search =>
      if nItems < 1 ∨ 100 < nItems then BulkResponse.validationError
      else if access.maxSize.getD 0 < nItems then
        BulkResponse.sizeDenied (access.maxSize.getD 0) access.tier
      else BulkResponse.processed nItems
    | BulkOp.details =>
      if nItems < 1 ∨ 50 < nItems then BulkResponse.validationError
      else if access.maxSize.getD 0 < nItems then
        BulkResponse.sizeDenied (access.maxSize.getD 0) access.tier
      else BulkResponse.processed nItems

/-- Counterexample to **C8** as stated: an enterprise-tier caller's detail
batch of 51 items is rejected — `BulkDetailsSchema` caps `companyNumbers` at
50 regardless of tier — although the claim promises top-tier batches of up
to 100 items of either kind. -/
theorem bulk_enterprise_details_51_counterexample :
    bulkPost (some Product.enterpriseProd) BulkOp.details 51 =
        BulkResponse.validationError ∧
    bulkPost (some Product.enterpriseProd) BulkOp.details 51 ≠
        BulkResponse.processed 51 := by decide

/-- **C8** (amended): batch access is tier-gated — no subscription and the
basic product are both reported as tier `'free'` (the bulk route's map omits
the basic product) and rejected with the feature error carrying that tier;
pro accepts 1-25 items of either kind; enterprise accepts 1-100 search items
but only 1-50 detail items, the detail schema's ceiling; larger batches are
rejected. -/
theorem bulkPost_tier_gate_amended (n : Nat) :
    bulkPost none BulkOp.search n = BulkResponse.featureDenied "free" ∧
    bulkPost none BulkOp.details n = BulkResponse.featureDenied "free" ∧
    bulkPost (some Product.basicProd) BulkOp.search n =
      BulkResponse.featureDenied "free" ∧
    bulkPost (some Product.basicProd) BulkOp.details n =
      BulkResponse.featureDenied "free" ∧
    (bulkPost (some Product.proProd) BulkOp.search n =
        BulkResponse.processed n ↔ 1 ≤ n ∧ n ≤ 25) ∧
    (bulkPost (some Product.proProd) BulkOp.details n =
        BulkResponse.processed n ↔ 1 ≤ n ∧ n ≤ 25) ∧
    (bulkPost (some Product.enterpriseProd) BulkOp.search n =
        BulkResponse.processed n ↔ 1 ≤ n ∧ n ≤ 100) ∧
    (bulkPost (some Product.enterpriseProd) BulkOp.details n =
        BulkResponse.processed n ↔ 1 ≤ n ∧ n ≤ 50) := by
  refine ⟨rfl, rfl, rfl, rfl, ?_, ?_, ?_, ?_⟩ <;>
    · simp only [bulkPost, checkBulkAccess]
      norm_num
      split_ifs <;> simp <;> omega

/-- Witness for the amended C8: a 10-item pro-tier search batch is
processed. -/
theorem bulkPost_tier_gate_amended_witness :
    bulkPost (some Product.proProd) BulkOp.search 10 =
      BulkResponse.processed 10 :=
  ((bulkPost_tier_gate_amended 10).2.2.2.2.1).mpr (by omega)

/-! ## Person write-back and name normalization (part_016 lines 1077-1189)

`cacheOfficers` and `cachePSCs` upsert `persons` rows keyed by
`normalized_name = name.toLowerCase().trim()`.  Names are modelled as
character lists; `toLowerCase` as ASCII `Char.toLower` and `trim` as
dropping the ASCII whitespace characters `' '`, tab, newline and carriage
return from both ends (the registry's names are ASCII).  Only leading and
trailing whitespace is removed — interior whitespace survives
normalization. -/

def isJsWs (c : Char) : Bool :=
  c == ' ' || c == '\t' || c == '\n' || c == '\r'

/-- `name.toLowerCase()`. -/
def jsToLower (s : List Char) : List Char := s.map Char.toLower

def trimLeft (s : List Char) : List Char := s.dropWhile isJsWs

def trimRight (s : List Char) : List Char :=
  (s.reverse.dropWhile isJsWs).reverse

/-- `.trim()`: remove whitespace from both ends only. -/
def jsTrim (s : List Char) : List Char := trimRight (trimLeft s)

/-- `normalized_name`: `name.toLowerCase().trim()` (part_016 lines 1090 and
1150). -/
def normalizedName (s : List Char) : List Char := jsTrim (jsToLower s)

structure PersonRow where
  full_name : List Char
  date_of_birth : Option (Nat × Nat)
  nationality : Option String
  address : Option String
  normalized_name : List Char
  deriving Repr, DecidableEq

structure OfficerRec where
  name : List Char
  date_of_birth : Option (Nat × Nat)
  nationality : Option String
  address : Option String
  deriving Repr, DecidableEq

/-- The `personData` record built for an officer (part_016 lines
1083-1091). -/
def officerPersonData (o : OfficerRec) : PersonRow :=
  { full_name := o.name
    date_of_birth := o.date_of_birth
    nationality := o.nationality
    address := o.address
    normalized_name := normalizedName o.name }

/-- The `persons`-table effect of `cacheOfficers` (part_016 lines
1077-1129): upsert one person per officer, conflict target
`normalized_name`. -/
def cacheOfficersPersons (officers : List OfficerRec)
    (persons : List PersonRow) : List PersonRow :=
  officers.foldl
    (fun tbl o => upsertRow PersonRow.normalized_name tbl
      (officerPersonData o)) persons

/-- Formalization of the claim's hypothesis "names that differ only in
letter case or in whitespace": lowercase both names and erase every
whitespace character; the claim quantifies over pairs with equal
residues. -/
def differsOnlyInCaseOrWhitespace (n1 n2 : List Char) : Bool :=
  (jsToLower n1).filter (fun c => !(isJsWs c)) ==
    (jsToLower n2).filter (fun c => !(isJsWs c))

theorem toLower_ws {c : Char} (h : isJsWs c = true) : Char.toLower c = c := by
  simp only [isJsWs, Bool.or_eq_true, beq_iff_eq] at h
  rcases h with ((rfl | rfl) | rfl) | rfl <;> decide

theorem map_toLower_ws {a : List Char} (h : ∀ c ∈ a, isJsWs c = true) :
    a.map Char.toLower = a := by
  induction a with
  | nil => rfl
  | cons x xs ih =>
    rw [List.map_cons, toLower_ws (h x (List.mem_cons_self x xs)),
      ih (fun c hc => h c (List.mem_cons.mpr (Or.inr hc)))]

theorem dropWhile_append_all {p : Char → Bool} {a : List Char}
    (b : List Char) (h : ∀ c ∈ a, p c = true) :
    (a ++ b).dropWhile p = b.dropWhile p := by
  induction a with
  | nil => rfl
  | cons x xs ih =>
    rw [List.cons_append]
    simp only [List.dropWhile_cons, h x (List.mem_cons_self x xs), if_true]
    exact ih (fun c hc => h c (List.mem_cons.mpr (Or.inr hc)))

theorem dropWhile_nil_of_all {p : Char → Bool} {a : List Char}
    (h : ∀ c ∈ a, p c = true) : a.dropWhile p = [] := by
  have h2 := dropWhile_append_all (p := p) [] h
  simpa using h2

theorem dropWhile_ne_nil_append {p : Char → Bool} {a : List Char}
    (b : List Char) (h : a.dropWhile p ≠ []) :
    (a ++ b).dropWhile p = a.dropWhile p ++ b := by
  induction a with
  | nil => simp at h
  | cons x xs ih =>
    by_cases hx : p x
    · have h2 : xs.dropWhile p ≠ [] := by
        simpa [List.dropWhile_cons, hx] using h
      simp [List.dropWhile_cons, hx, ih h2]
    · simp [List.dropWhile_cons, hx]

theorem all_of_dropWhile_nil {p : Char → Bool} {a : List Char}
    (h : a.dropWhile p = []) : ∀ c ∈ a, p c = true := by
  induction a with
  | nil => intro c hc; cases hc
  | cons x xs ih =>
    by_cases hx : p x
    · intro c hc
      rcases List.mem_cons.mp hc with rfl | hc2
      · exact hx
      · exact ih (by simpa [List.dropWhile_cons, hx] using h) c hc2
    · exfalso
      simp [List.dropWhile_cons, hx] at h

theorem trimRight_append_ws {s ws2 : List Char}
    (h : ∀ c ∈ ws2, isJsWs c = true) :
    trimRight (s ++ ws2) = trimRight s := by
  unfold trimRight
  rw [List.reverse_append,
    dropWhile_append_all _ (fun c hc => h c (List.mem_reverse.mp hc))]

theorem jsTrim_append_right {s ws2 : List Char}
    (h : ∀ c ∈ ws2, isJsWs c = true) : jsTrim (s ++ ws2) = jsTrim s := by
  unfold jsTrim trimLeft
  by_cases hnil : s.dropWhile isJsWs = []
  · rw [dropWhile_append_all _ (all_of_dropWhile_nil hnil),
      dropWhile_nil_of_all h, hnil]
  · rw [dropWhile_ne_nil_append _ hnil, trimRight_append_ws h]

theorem jsTrim_append_left {s ws1 : List Char}
    (h : ∀ c ∈ ws1, isJsWs c = true) : jsTrim (ws1 ++ s) = jsTrim s := by
  unfold jsTrim trimLeft
  rw [dropWhile_append_all _ h]

theorem upsert_twice_spec {K R : Type} [DecidableEq K] (key : R → K)
    (t : List R) (r1 r2 : R) (huniq : UniqKey key t)
    (hk : key r1 = key r2) :
    (upsertRow key (upsertRow key t r1) r2).countP
        (fun x => key x = key r2) = 1 ∧
    (upsertRow key (upsertRow key t r1) r2).find?
        (fun x => key x = key r2) = some r2 := by
  have huniq1 := upsert_uniq key huniq r1
  constructor
  · have hcount := upsert_countP_self key (upsertRow key t r1) r2
    have hany : (upsertRow key t r1).any (fun x => key x = key r2) = true := by
      have h2 := upsert_any_self key t r1
      simpa [hk] using h2
    rw [hcount, if_pos hany]
    have hpos : 1 ≤ (upsertRow key t r1).countP
        (fun x => key x = key r2) := by
      have h2 := upsert_countP_pos key t r1
      simpa [hk] using h2
    have hle := huniq1 (key r2)
    omega
  · exact upsert_find_self key _ r2

/-- Counterexample to **C9** as stated: `"John Smith"` and `"John  Smith"`
differ only in whitespace, yet `toLowerCase().trim()` keeps the interior
double space, so the write-back stores two distinct Person rows. -/
theorem person_whitespace_counterexample :
    differsOnlyInCaseOrWhitespace "John Smith".toList
        "John  Smith".toList = true ∧
    normalizedName "John Smith".toList ≠
      normalizedName "John  Smith".toList ∧
    (cacheOfficersPersons
        [⟨"John Smith".toList, none, none, none⟩,
          ⟨"John  Smith".toList, none, none, none⟩] []).length = 2 := by
  decide

/-- **C9** (amended): the Person natural key is the lowercased,
edge-trimmed full name.  Names equal up to letter case, and names padded
with leading or trailing whitespace, normalize identically, and two officer
records whose names share a normalized form are stored as one single Person
row holding the last-applied attributes; interior whitespace differences
are preserved and yield distinct Person rows. -/
theorem person_normalized_key_amended :
    (∀ n1 n2 : List Char, jsToLower n1 = jsToLower n2 →
      normalizedName n1 = normalizedName n2) ∧
    (∀ ws1 ws2 nm : List Char, (∀ c ∈ ws1, isJsWs c = true) →
      (∀ c ∈ ws2, isJsWs c = true) →
      normalizedName (ws1 ++ nm ++ ws2) = normalizedName nm) ∧
    (∀ (t : List PersonRow) (o1 o2 : OfficerRec),
      UniqKey PersonRow.normalized_name t →
      normalizedName o1.name = normalizedName o2.name →
      (cacheOfficersPersons [o1, o2] t).countP
          (fun x => x.normalized_name = normalizedName o2.name) = 1 ∧
      (cacheOfficersPersons [o1, o2] t).find?
          (fun x => x.normalized_name = normalizedName o2.name) =
        some (officerPersonData o2)) := by
  refine ⟨?_, ?_, ?_⟩
  · intro n1 n2 h
    unfold normalizedName
    rw [show jsTrim (jsToLower n1) = jsTrim (jsToLower n2) from by rw [h]]
  · intro ws1 ws2 nm h1 h2
    unfold normalizedName jsToLower
    rw [List.map_append, List.map_append, map_toLower_ws h1,
      map_toLower_ws h2, jsTrim_append_right h2, jsTrim_append_left h1]
  · intro t o1 o2 huniq hkey
    exact upsert_twice_spec PersonRow.normalized_name t
      (officerPersonData o1) (officerPersonData o2) huniq hkey

/-- Witness for the amended C9: `"John Smith"` and `" JOHN SMITH "` (same
name up to case and edge whitespace) collapse into one Person row. -/
theorem person_normalized_key_amended_witness :
    (cacheOfficersPersons
        [⟨"John Smith".toList, none, none, none⟩,
          ⟨" JOHN SMITH ".toList, none, none, none⟩] []).countP
        (fun x => x.normalized_name =
          normalizedName " JOHN SMITH ".toList) = 1 ∧
    (cacheOfficersPersons
        [⟨"John Smith".toList, none, none, none⟩,
          ⟨" JOHN SMITH ".toList, none, none, none⟩] []).find?
        (fun x => x.normalized_name =
          normalizedName " JOHN SMITH ".toList) =
      some (officerPersonData ⟨" JOHN SMITH ".toList, none, none, none⟩) :=
  person_normalized_key_amended.2.2 []
    ⟨"John Smith".toList, none, none, none⟩
    ⟨" JOHN SMITH ".toList, none, none, none⟩
    (fun k => by simp) (by decide)

end KYB
